import Mathlib

/-!
Shallow embedding of `contiguous_set` (src/main.cpp), a deferred-write sorted
set: `insert`/`erase` append to a bounded operation log (`op_buffer`,
`buffer_ops`), and `make_ready` reconciles the log against the sorted store
(`items`).  The element type `T` is instantiated at `Int` (a totally ordered
type with decidable comparisons, as the template requires).  The C++ raw array
`op_buffer[BufferSize]` together with the count `buffer_ops` is modelled as
the list of its first `buffer_ops` entries; the capacity `BufferSize` is a
parameter `C` of the operations that consult it.
-/

namespace CSet

/-- `enum ContainerState { Ready = 0, Modified }`. -/
inductive ContainerState where
  | Ready
  | Modified
deriving DecidableEq, Repr

/-- `enum BufferOperation { InsertItem, DeleteItem }`. -/
inductive BufferOperation where
  | InsertItem
  | DeleteItem
deriving DecidableEq, Repr

export BufferOperation (InsertItem DeleteItem)

/-- Numeric value of the C++ enum constant (`InsertItem = 0`, `DeleteItem = 1`),
used by `BufferItem::operator<`'s comparison `operation < item.operation`. -/
def opVal : BufferOperation → Nat
  | InsertItem => 0
  | DeleteItem => 1

/-- `class BufferItem { BufferOperation operation; T value; }`. -/
structure BufferItem where
  operation : BufferOperation
  value : Int
deriving DecidableEq, Repr

/-- `BufferItem::operator<`: compare by operation enum value first, then by
value when the operations coincide. -/
def BufferItem.lt (a b : BufferItem) : Bool :=
  if a.operation = b.operation then decide (a.value < b.value)
  else decide (opVal a.operation < opVal b.operation)

/-- The non-strict order induced by `BufferItem::operator<` (`a ≤ b ↔ ¬ b < a`);
`std::sort` with a strict weak ordering puts the result in this order. -/
def bufferLe (a b : BufferItem) : Prop := ¬ BufferItem.lt b a = true

instance : DecidableRel bufferLe := fun a b => instDecidableNot

/-- The container state: the pending-operation log (first `buffer_ops` slots of
`op_buffer`, in arrival order), the `state` flag and the sorted store `items`. -/
structure State where
  op_buffer : List BufferItem
  state : ContainerState
  items : List Int
deriving DecidableEq, Repr

/-- `contiguous_set() : buffer_ops(0), state(Ready)`. -/
def initState : State := { op_buffer := [], state := ContainerState.Ready, items := [] }

/-- Index returned by `std::lower_bound(items.begin(), items.end(), v)`: the
first position whose element is not `< v`.  `std::lower_bound` requires the
range to be partitioned with respect to `(· < v)`; for such a range (in
particular for the sorted store) that position is the number of elements
`< v`, which is how the model computes it. -/
def lowerBoundIdx (l : List Int) (v : Int) : Nat := l.countP (fun x => decide (x < v))

/-- Index returned by `std::upper_bound(items.begin(), items.end(), v)`: the
first position whose element is `> v`; for a range partitioned with respect to
`(¬ v < ·)` it is the number of elements `≤ v`. -/
def upperBoundIdx (l : List Int) (v : Int) : Nat := l.countP (fun x => decide (x ≤ v))

/-- `std::binary_search(items.begin(), items.end(), v)`:
`it = lower_bound(...); return it != last && !(v < *it);`. -/
def binarySearch (l : List Int) (v : Int) : Bool :=
  match (l.drop (lowerBoundIdx l v)).head? with
  | some x => decide (¬ v < x)
  | none => false

/-- The inner look-ahead loop of `make_ready` (`for j = i+1 ...`): starting
from `true`, every later entry with the same value overwrites the flag with
"is this entry's operation equal to `op`?" — so the result records whether the
last entry for this value has kind `op` (and is `true` when there is none).
In the `InsertItem` branch `op = InsertItem` and the flag is `eventual_add`;
in the `DeleteItem` branch `op = DeleteItem` and it is `eventual_delete`. -/
def eventualFlag (op : BufferOperation) (v : Int) (rest : List BufferItem) : Bool :=
  rest.foldl (fun acc it => if it.value = v then decide (it.operation = op) else acc) true

/-- Whether an unskipped entry survives into `optimised_op_buffer`: an
`InsertItem` entry is emitted iff its `eventual_add` flag survived the
look-ahead and the value is not in the store
(`eventual_add && !std::binary_search(...)`); a `DeleteItem` entry iff
`eventual_delete` survived and the value is in the store. -/
def emitFlag (it : BufferItem) (rest : List BufferItem) (items : List Int) : Bool :=
  match it.operation with
  | InsertItem => eventualFlag InsertItem it.value rest && !(binarySearch items it.value)
  | DeleteItem => eventualFlag DeleteItem it.value rest && binarySearch items it.value

/-- The outer loop of `make_ready` building `optimised_op_buffer`.  In the C++
code `handled[j]` is set exactly when some earlier entry has the same value
(both inner-loop branches mark every later same-value entry handled, and `i`
marks itself), so an entry is skipped iff its value occurred before; the model
carries that set of already-seen values in `seen`.  An unskipped entry is
emitted according to `emitFlag`. -/
def optimiseLoop (buf : List BufferItem) (items : List Int) (seen : List Int) :
    List BufferItem :=
  match buf with
  | [] => []
  | it :: rest =>
    if it.value ∈ seen then optimiseLoop rest items seen
    else
      (if emitFlag it rest items then [it] else []) ++ optimiseLoop rest items (it.value :: seen)

/-- The loop `for(inserts = 0; ...) if(op[inserts].operation == DeleteItem) break;`
counts the leading entries that are not deletes; on the sorted buffer these are
exactly the net inserts.  Modelled as the longest such prefix. -/
def leadingInserts (l : List BufferItem) : List BufferItem :=
  l.takeWhile (fun it => !(it.operation = DeleteItem : Bool))

/-- The remaining entries, scanned by `delete_pos` from index `inserts` on. -/
def trailingDeletes (l : List BufferItem) : List BufferItem :=
  l.dropWhile (fun it => !(it.operation = DeleteItem : Bool))

/-- `std::inplace_merge(items.begin(), items.end() - inserts, items.end())`:
stable in-place merge of two adjacent ascending runs (the old store and the
appended net-insert values): an element of the second run moves ahead only
when it is strictly smaller.  Written with a nested structural recursion
(outer on the first run, inner on the second) so that it satisfies
`mergeRuns [] ys = ys`, `mergeRuns (x :: xs) [] = x :: xs` and
`mergeRuns (x :: xs) (y :: ys) =
  if y < x then y :: mergeRuns (x :: xs) ys else x :: mergeRuns xs (y :: ys)`
definitionally (see `mergeRuns_cons_cons`). -/
def mergeRuns : List Int → List Int → List Int
  | [], ys => ys
  | x :: xs, ys =>
    let f := mergeRuns xs
    let rec go : List Int → List Int
      | [] => x :: xs
      | y :: ys' => if y < x then y :: go ys' else x :: f (y :: ys')
    go ys

/-- The delete pass of `make_ready`: one forward scan over the merged store
with a cursor over the sorted net-delete values; an element equal to the
cursor's target is skipped (and the cursor advanced), every other element is
copied forward. -/
def deletePass : List Int → List Int → List Int
  | [], _ => []
  | x :: xs, [] => x :: deletePass xs []
  | x :: xs, d :: ds => if x = d then deletePass xs ds else x :: deletePass xs (d :: ds)

/-- `contiguous_set::make_ready`.  If the log is empty, only the `state` flag
is refreshed.  Otherwise: resolve the log into `optimised_op_buffer`
(`optimiseLoop`), `std::sort` it under `BufferItem::operator<` (all emitted
entries have pairwise distinct values, hence no two are equivalent under the
comparator, so the sorted result is unique and any sorting algorithm models
`std::sort`; the model uses insertion sort), split it into the leading inserts
and the trailing deletes, append the insert values to the store and
`inplace_merge`, then run the delete pass, and clear the log. -/
def make_ready (s : State) : State :=
  if s.op_buffer.length = 0 then { s with state := ContainerState.Ready }
  else
    let optimised := optimiseLoop s.op_buffer s.items []
    let sortedOps := List.insertionSort bufferLe optimised
    let insertVals := (leadingInserts sortedOps).map BufferItem.value
    let deleteVals := (trailingDeletes sortedOps).map BufferItem.value
    let merged := mergeRuns s.items insertVals
    let newItems := deletePass merged deleteVals
    { op_buffer := [], state := ContainerState.Ready, items := newItems }

/-- `contiguous_set::insert(const T&)`: reconcile first when the log is full
(`buffer_ops == BufferSize`), then append `BufferItem(InsertItem, val)`. -/
def insertOp (C : Nat) (s : State) (v : Int) : State :=
  let s' := if s.op_buffer.length = C then make_ready s else s
  { s' with op_buffer := s'.op_buffer ++ [BufferItem.mk InsertItem v] }

/-- `contiguous_set::erase(const T&)`: reconcile first when the log is full,
then append `BufferItem(DeleteItem, val)`. -/
def eraseOp (C : Nat) (s : State) (v : Int) : State :=
  let s' := if s.op_buffer.length = C then make_ready s else s
  { s' with op_buffer := s'.op_buffer ++ [BufferItem.mk DeleteItem v] }

/-- The contents observed by iterating from `begin()` to `end()`: both
reconcile, then walk `items` in order. -/
def toList (s : State) : List Int := (make_ready s).items

/-- One `insert(v)`/`erase(v)` call, for driving the container with a script. -/
inductive SetOp where
  | ins (v : Int)
  | del (v : Int)
deriving DecidableEq, Repr

/-- Apply one call to the container (capacity `C`). -/
def stepOp (C : Nat) (s : State) : SetOp → State
  | SetOp.ins v => insertOp C s v
  | SetOp.del v => eraseOp C s v

/-- Run a script of calls on an initially empty container with the source's
default capacity `BufferSize = 64`, then observe the reconciled contents. -/
def runProg (prog : List SetOp) : List Int :=
  toList (prog.foldl (stepOp 64) initState)

/-- Reference model: `insert` into a duplicate-free ascending list. -/
def refInsert (v : Int) : List Int → List Int
  | [] => [v]
  | x :: xs =>
    if v < x then v :: x :: xs else if v = x then x :: xs else x :: refInsert v xs

/-- Reference model: `erase` from the list. -/
def refErase (v : Int) (l : List Int) : List Int := l.filter (fun x => !(x = v : Bool))

/-- Apply one call to the reference ordered-set model. -/
def refStep (l : List Int) : SetOp → List Int
  | SetOp.ins v => refInsert v l
  | SetOp.del v => refErase v l

/-- Run a script of calls on the empty reference ordered set. -/
def refRun (prog : List SetOp) : List Int := prog.foldl refStep []

/-- The binary-search loop of `contiguous_set::find`, with explicit fuel:
`while (beg < end) { med = beg + (end-beg)/2; if (items[med] == val) return
med; else if (items[med] > val) end = med; else beg = med; }` and the
end-marker (`items.length`, i.e. `end()`) when the loop exits.  `none` means
the loop did not finish within `fuel` iterations.  Note the narrowing step on
the low side is `beg = med`, exactly as in the source. -/
def findLoop (items : List Int) (v : Int) : Nat → Nat → Nat → Option Nat
  | 0, _, _ => none
  | fuel + 1, beg, e =>
    if beg < e then
      let med := beg + (e - beg) / 2
      if items.getD med 0 = v then some med
      else if items.getD med 0 > v then findLoop items v fuel beg med
      else findLoop items v fuel med e
    else some items.length

/-- `contiguous_set::find(const T&)`: reconcile, then run the binary-search
loop over the whole store. -/
def findOp (s : State) (v : Int) (fuel : Nat) : Option Nat :=
  let s' := make_ready s
  findLoop s'.items v fuel 0 s'.items.length

/-- `contiguous_set::lower_bound(const T&)`: computes
`std::lower_bound(items.begin(), items.end(), val)` directly on the store —
there is no call to `make_ready` in the source. -/
def lower_bound (s : State) (v : Int) : Nat := lowerBoundIdx s.items v

/-- `contiguous_set::upper_bound(const T&)`: computes
`std::upper_bound(items.begin(), items.end(), val)` directly on the store —
no call to `make_ready`. -/
def upper_bound (s : State) (v : Int) : Nat := upperBoundIdx s.items v

/-- `contiguous_set::equal_range(const T&)`: computes
`std::equal_range(items.begin(), items.end(), val)` directly on the store —
no call to `make_ready`.  `std::equal_range` is the pair
`(lower_bound, upper_bound)`. -/
def equal_range (s : State) (v : Int) : Nat × Nat :=
  (lowerBoundIdx s.items v, upperBoundIdx s.items v)

/-- `std::vector::resize(n)`: keep the first `n` elements, value-initialize
(to `0` for `int`-like `T`) any newly created ones. -/
def listResize (l : List Int) (n : Nat) : List Int :=
  l.take n ++ List.replicate (n - l.length) 0

/-- `std::copy(src.begin(), src.end(), dst.begin())` viewed through the
destination vector: positions `0 ≤ i < min(|src|, |dst|)` receive `src[i]`,
the rest of `dst` keeps its elements.  Writes past `dst.end()` are
out-of-bounds in C++ (undefined behavior when `|src| > |dst|`) and in any
case never become elements of the destination vector, so the model drops
them. -/
def copyInto (src dst : List Int) : List Int :=
  src.take dst.length ++ dst.drop src.length

/-- `contiguous_set(contiguous_set<T>& other)`: calls `other.make_ready()`,
resizes the freshly default-constructed (hence empty) `items` to
`items.size()` — its own size, `0` — and `std::copy`s the source's items into
that range.  The constructor initializes neither `buffer_ops` nor `state`;
those fields hold indeterminate values, modelled by the `junkBuf` /
`junkState` parameters. -/
def copyCtor (other : State) (junkBuf : List BufferItem) (junkState : ContainerState) :
    State :=
  let o := make_ready other
  let newItems := copyInto o.items (listResize [] (List.length ([] : List Int)))
  { op_buffer := junkBuf, state := junkState, items := newItems }

/-- Kind of the first log entry for value `v`, if any. -/
def firstKind (v : Int) : List BufferItem → Option BufferOperation
  | [] => none
  | it :: rest => if it.value = v then some it.operation else firstKind v rest

/-- Kind of the last log entry for value `v`, if any. -/
def lastKind (v : Int) (l : List BufferItem) : Option BufferOperation :=
  firstKind v l.reverse

end CSet

namespace CSet

/-! ### Basic lemmas about the embedded operations -/

/-- `make_ready` always leaves the operation log empty. -/
theorem make_ready_op_buffer (s : State) : (make_ready s).op_buffer = [] := by
  unfold make_ready
  split
  · next h => simpa using List.length_eq_zero.mp h
  · rfl

/-- Merging an empty second run is the identity. -/
theorem mergeRuns_nil_right (xs : List Int) : mergeRuns xs [] = xs := by
  cases xs <;> rfl

/-- The step equation of the two-run merge, as in the recursion of
`std::inplace_merge`'s specification. -/
theorem mergeRuns_cons_cons (x y : Int) (xs ys : List Int) :
    mergeRuns (x :: xs) (y :: ys) =
      if y < x then y :: mergeRuns (x :: xs) ys
      else x :: mergeRuns xs (y :: ys) := rfl

/-- The delete pass with no delete targets copies the store unchanged. -/
theorem deletePass_nil_right (l : List Int) : deletePass l [] = l := by
  induction l with
  | nil => rfl
  | cons x xs ih => simp [deletePass, ih]

end CSet

open CSet in
/-- C6: the operation log never exceeds the capacity `C`: `insert`/`erase`
each append exactly one entry, and when the log already holds `C` entries
they first reconcile (emptying the log) and then append, so no operation is
rejected. -/
theorem log_capacity_invariant (C : Nat) (s : State) (v : Int)
    (hC : 0 < C) (hlen : s.op_buffer.length ≤ C) :
    (insertOp C s v).op_buffer.length ≤ C ∧
    (eraseOp C s v).op_buffer.length ≤ C ∧
    (s.op_buffer.length < C →
      (insertOp C s v).op_buffer = s.op_buffer ++ [BufferItem.mk InsertItem v] ∧
      (eraseOp C s v).op_buffer = s.op_buffer ++ [BufferItem.mk DeleteItem v]) ∧
    (s.op_buffer.length = C →
      (insertOp C s v).op_buffer = [BufferItem.mk InsertItem v] ∧
      (eraseOp C s v).op_buffer = [BufferItem.mk DeleteItem v]) := by
  by_cases h : s.op_buffer.length = C
  · simp [insertOp, eraseOp, h, make_ready_op_buffer]
    omega
  · have hlt : s.op_buffer.length < C := lt_of_le_of_ne hlen h
    simp [insertOp, eraseOp, h]
    omega

open CSet in
/-- Witness for C6 at `C = 2`, a full log of two entries and `v = 3`. -/
theorem log_capacity_invariant_witness :
    (0 < 2 ∧ (State.mk [BufferItem.mk InsertItem 1, BufferItem.mk InsertItem 2]
        ContainerState.Modified []).op_buffer.length ≤ 2) ∧
    (insertOp 2 (State.mk [BufferItem.mk InsertItem 1, BufferItem.mk InsertItem 2]
        ContainerState.Modified []) 3).op_buffer.length ≤ 2 :=
  ⟨⟨by decide, by decide⟩,
    (log_capacity_invariant 2
      (State.mk [BufferItem.mk InsertItem 1, BufferItem.mk InsertItem 2]
        ContainerState.Modified []) 3 (by decide) (by decide)).1⟩

open CSet in
/-- C8: copy construction resizes the new container's storage to its own
(empty) size before copying, so the copy's store has no elements, whatever
the source held and whatever indeterminate values the uninitialized fields
take. -/
theorem copy_ctor_items_empty (other : State) (junkBuf : List BufferItem)
    (junkState : ContainerState) :
    (copyCtor other junkBuf junkState).items = [] := by
  simp [copyCtor, copyInto, listResize]

open CSet in
/-- C1 (failing input): on an initially empty container, the script
`erase(7); insert(7)` reconciles to the empty store, while the reference
ordered set applying the same calls in order holds `7` — the container does
not refine the reference model. -/
theorem run_erase_then_insert_ne_reference :
    runProg [SetOp.del 7, SetOp.ins 7] = [] ∧
    refRun [SetOp.del 7, SetOp.ins 7] = [7] := by
  exact ⟨by decide, by decide⟩

open CSet in
/-- C2 (failing input): `erase(5); insert(5)` on an initially empty container
(one unreconciled batch) reconciles to `5` absent, not present: the code
drops the pair because the first occurrence's kind (`Delete`) differs from
the last occurrence's kind (`Insert`), instead of honouring the last write. -/
theorem erase_then_insert_absent_stays_absent :
    (5 : Int) ∉ runProg [SetOp.del 5, SetOp.ins 5] ∧
    runProg [SetOp.del 5, SetOp.ins 5] = [] := by
  exact ⟨by decide, by decide⟩

open CSet in
/-- C4 (failing input): with reconciled store `[1]`, `find(2)` never
terminates: the loop reaches `beg = 0, end = 1`, computes `med = 0`, sees
`items[0] = 1 < 2` and sets `beg = med = 0` again — no amount of fuel makes
the binary-search loop finish. -/
theorem find_loops_forever_on_absent_above :
    ∀ fuel : Nat,
      findOp (State.mk [] ContainerState.Ready [1]) 2 fuel = none := by
  intro fuel
  have h : ∀ f : Nat, findLoop [1] 2 f 0 1 = none := by
    intro f
    induction f with
    | zero => rfl
    | succ n ih => simpa [findLoop] using ih
  simpa [findOp, make_ready] using h fuel

namespace CSet

/-! ### The order induced by `BufferItem::operator<` -/

/-- `BufferItem::operator<` unfolded to the lexicographic order on
`(opVal operation, value)`. -/
theorem BufferItem.lt_iff (a b : BufferItem) :
    BufferItem.lt a b = true ↔
      opVal a.operation < opVal b.operation ∨
        (a.operation = b.operation ∧ a.value < b.value) := by
  cases ha : a.operation <;> cases hb : b.operation <;>
    simp [BufferItem.lt, ha, hb, opVal]

/-- The induced non-strict order, unfolded. -/
theorem bufferLe_iff (a b : BufferItem) :
    bufferLe a b ↔
      opVal a.operation < opVal b.operation ∨
        (a.operation = b.operation ∧ a.value ≤ b.value) := by
  rcases a with ⟨aop, av⟩
  rcases b with ⟨bop, bv⟩
  cases aop <;> cases bop <;>
    simp [bufferLe, BufferItem.lt, opVal] <;> omega

instance : IsTotal BufferItem bufferLe :=
  ⟨fun a b => by
    rw [bufferLe_iff, bufferLe_iff]
    rcases a with ⟨aop, av⟩
    rcases b with ⟨bop, bv⟩
    cases aop <;> cases bop <;> simp [opVal] <;> omega⟩

instance : IsTrans BufferItem bufferLe :=
  ⟨fun a b c hab hbc => by
    rw [bufferLe_iff] at hab hbc ⊢
    rcases a with ⟨aop, av⟩
    rcases b with ⟨bop, bv⟩
    rcases c with ⟨cop, cv⟩
    cases aop <;> cases bop <;> cases cop <;>
      simp [opVal] at hab hbc ⊢ <;> omega⟩

/-! ### Binary search on a sorted store -/

/-- On a strictly sorted range, `std::binary_search` is the membership test. -/
theorem binarySearch_eq_true_iff (v : Int) (l : List Int)
    (hs : List.Sorted (· < ·) l) : binarySearch l v = true ↔ v ∈ l := by
  induction l with
  | nil => simp [binarySearch, lowerBoundIdx]
  | cons x t ih =>
    rcases List.sorted_cons.mp hs with ⟨hall, ht⟩
    by_cases hx : x < v
    · have hk : lowerBoundIdx (x :: t) v = lowerBoundIdx t v + 1 := by
        simp [lowerBoundIdx, List.countP_cons, hx]
      have hbs : binarySearch (x :: t) v = binarySearch t v := by
        rw [binarySearch, binarySearch, hk, List.drop_succ_cons]
      rw [hbs, ih ht, List.mem_cons]
      have : v ≠ x := (ne_of_lt hx).symm
      tauto
    · have hk : lowerBoundIdx (x :: t) v = 0 := by
        have hct : t.countP (fun y => decide (y < v)) = 0 :=
          List.countP_eq_zero.mpr fun y hy => by
            have h1 : x < y := hall y hy
            have h2 : ¬ x < v := hx
            simp
            omega
        simp [lowerBoundIdx, List.countP_cons, hx, hct]
      have hbs : binarySearch (x :: t) v = decide (¬ v < x) := by
        rw [binarySearch, hk]; rfl
      rw [hbs, List.mem_cons]
      have hnt : v ∉ t := fun hvt => hx (hall v hvt)
      constructor
      · intro hd
        have hvx : ¬ v < x := by simpa using hd
        exact Or.inl (le_antisymm (not_lt.mp hx) (not_lt.mp hvx))
      · rintro (rfl | hvt)
        · simp
        · exact absurd hvt hnt

/-! ### `countP`-based boundary indices on a sorted store -/

/-- On a strictly sorted list, for a predicate that is downward closed with
respect to the order, position `i` lies below the `countP` count exactly when
the element at `i` satisfies the predicate.  Instantiated with `(· < v)` and
`(· ≤ v)` this characterizes `std::lower_bound` and `std::upper_bound`. -/
theorem countP_sorted_get_iff (p : Int → Bool)
    (hp : ∀ a b : Int, a ≤ b → p b = true → p a = true) :
    ∀ (l : List Int), List.Sorted (· < ·) l →
      ∀ (i : Nat) (hi : i < l.length), (i < l.countP p ↔ p (l.get ⟨i, hi⟩) = true) := by
  intro l
  induction l with
  | nil => intro _ i hi; simp at hi
  | cons x t ih =>
    intro hs i hi
    rcases List.sorted_cons.mp hs with ⟨hall, ht⟩
    rw [List.countP_cons]
    by_cases hx : p x = true
    · rw [if_pos hx]
      cases i with
      | zero =>
        have hval : (x :: t).get ⟨0, hi⟩ = x := rfl
        rw [hval, hx]
        simp
      | succ j =>
        have hj : j < t.length := by simpa using hi
        have hiff := ih ht j hj
        have hval : (x :: t).get ⟨j + 1, hi⟩ = t.get ⟨j, hj⟩ := rfl
        rw [hval]
        constructor
        · intro hlt
          exact hiff.mp (by omega)
        · intro hp'
          have := hiff.mpr hp'
          omega
    · have hct : t.countP p = 0 :=
        List.countP_eq_zero.mpr fun y hy hpy =>
          hx (hp x y (le_of_lt (hall y hy)) hpy)
      rw [if_neg hx, hct]
      cases i with
      | zero =>
        have hval : (x :: t).get ⟨0, hi⟩ = x := rfl
        rw [hval]
        simp [hx]
      | succ j =>
        have hj : j < t.length := by simpa using hi
        have hmem : t.get ⟨j, hj⟩ ∈ t := List.get_mem t _ _
        have hnp : ¬ p (t.get ⟨j, hj⟩) = true := fun hpy =>
          hx (hp x _ (le_of_lt (hall _ hmem)) hpy)
        have hval : (x :: t).get ⟨j + 1, hi⟩ = t.get ⟨j, hj⟩ := rfl
        rw [hval]
        simpa using hnp

end CSet

namespace CSet

/-! ### Properties of the resolution loop -/

/-- `emitFlag` on an insert entry. -/
theorem emitFlag_insert (it : BufferItem) (rest : List BufferItem) (items : List Int)
    (h : it.operation = InsertItem) :
    emitFlag it rest items =
      (eventualFlag InsertItem it.value rest && !(binarySearch items it.value)) := by
  unfold emitFlag
  rw [h]

/-- `emitFlag` on a delete entry. -/
theorem emitFlag_delete (it : BufferItem) (rest : List BufferItem) (items : List Int)
    (h : it.operation = DeleteItem) :
    emitFlag it rest items =
      (eventualFlag DeleteItem it.value rest && binarySearch items it.value) := by
  unfold emitFlag
  rw [h]

/-- Every entry emitted by the resolution loop has a value not seen before,
and passed its net-change filter: an emitted insert's value was absent from
the store (its `binary_search` failed), an emitted delete's value was present
(its `binary_search` succeeded). -/
theorem optimiseLoop_mem (buf : List BufferItem) (items : List Int) :
    ∀ seen, ∀ it ∈ optimiseLoop buf items seen,
      it.value ∉ seen ∧
      (it.operation = InsertItem → binarySearch items it.value = false) ∧
      (it.operation = DeleteItem → binarySearch items it.value = true) := by
  induction buf with
  | nil =>
    intro seen it hit
    simp [optimiseLoop] at hit
  | cons hd rest ih =>
    intro seen it hit
    rw [optimiseLoop] at hit
    by_cases hseen : hd.value ∈ seen
    · rw [if_pos hseen] at hit
      exact ih seen it hit
    · rw [if_neg hseen] at hit
      rcases List.mem_append.mp hit with h1 | h2
      · by_cases hemit : emitFlag hd rest items = true
        · rw [if_pos hemit] at h1
          have heq : it = hd := by simpa using h1
          subst heq
          refine ⟨hseen, ?_, ?_⟩
          · intro hins
            rw [emitFlag_insert it rest items hins] at hemit
            simp only [Bool.and_eq_true, Bool.not_eq_true'] at hemit
            exact hemit.2
          · intro hdel
            rw [emitFlag_delete it rest items hdel] at hemit
            simp only [Bool.and_eq_true] at hemit
            exact hemit.2
        · rw [if_neg hemit] at h1
          simp at h1
      · have := ih (hd.value :: seen) it h2
        exact ⟨fun hmem => this.1 (List.mem_cons_of_mem _ hmem), this.2.1, this.2.2⟩

/-- The values of the emitted net operations are pairwise distinct: each value
is resolved once, at its first occurrence in the log. -/
theorem optimiseLoop_values_nodup (buf : List BufferItem) (items : List Int) :
    ∀ seen, ((optimiseLoop buf items seen).map BufferItem.value).Nodup := by
  induction buf with
  | nil => intro seen; simp [optimiseLoop]
  | cons hd rest ih =>
    intro seen
    rw [optimiseLoop]
    by_cases hseen : hd.value ∈ seen
    · rw [if_pos hseen]; exact ih seen
    · rw [if_neg hseen]
      split
      · rw [List.map_append]
        refine List.Nodup.append (by simp) (ih _) ?_
        intro a ha hb
        simp only [List.map_cons, List.map_nil, List.mem_singleton] at ha
        rcases List.mem_map.mp hb with ⟨jt, hjt, hv⟩
        have hns := (optimiseLoop_mem rest items (hd.value :: seen) jt hjt).1
        exact hns (by rw [hv, ha]; exact List.mem_cons_self _ _)
      · simpa using ih (hd.value :: seen)

/-! ### The two-run merge -/

/-- Membership in the merged runs. -/
theorem mem_mergeRuns : ∀ (xs ys : List Int) (z : Int),
    z ∈ mergeRuns xs ys ↔ z ∈ xs ∨ z ∈ ys := by
  intro xs
  induction xs with
  | nil => intro ys z; simp [mergeRuns]
  | cons x xs ihx =>
    intro ys
    induction ys with
    | nil => intro z; simp [mergeRuns_nil_right]
    | cons y ys ihy =>
      intro z
      rw [mergeRuns_cons_cons]
      by_cases h : y < x
      · rw [if_pos h]
        simp only [List.mem_cons, ihy z]
        tauto
      · rw [if_neg h]
        simp only [List.mem_cons, ihx (y :: ys) z, List.mem_cons]
        tauto

/-- Merging a strictly ascending second run, disjoint from a strictly
ascending first run, yields a strictly ascending sequence (this is the state
of the store after `inplace_merge`, the net inserts having been filtered to
values absent from the store). -/
theorem mergeRuns_sorted : ∀ (xs ys : List Int),
    List.Sorted (· < ·) xs → List.Sorted (· < ·) ys →
    (∀ y ∈ ys, y ∉ xs) → List.Sorted (· < ·) (mergeRuns xs ys) := by
  intro xs
  induction xs with
  | nil => intro ys _ hys _; simpa [mergeRuns] using hys
  | cons x xs ihx =>
    intro ys
    induction ys with
    | nil => intro hxs _ _; simpa [mergeRuns_nil_right] using hxs
    | cons y ys ihy =>
      intro hxs hys hdisj
      rcases List.sorted_cons.mp hxs with ⟨hxall, hxs'⟩
      rcases List.sorted_cons.mp hys with ⟨hyall, hys'⟩
      rw [mergeRuns_cons_cons]
      by_cases h : y < x
      · rw [if_pos h]
        refine List.sorted_cons.mpr ⟨?_, ?_⟩
        · intro z hz
          rcases (mem_mergeRuns _ _ _).mp hz with hz1 | hz2
          · rcases List.mem_cons.mp hz1 with rfl | hz1'
            · exact h
            · exact lt_trans h (hxall z hz1')
          · exact hyall z hz2
        · exact ihy hxs hys' fun u hu => hdisj u (List.mem_cons_of_mem _ hu)
      · have hxy : x < y := by
          have hne : y ≠ x := fun he =>
            hdisj y (List.mem_cons_self _ _) (he ▸ List.mem_cons_self x xs)
          exact lt_of_le_of_ne (not_lt.mp h) (Ne.symm hne)
        rw [if_neg h]
        refine List.sorted_cons.mpr ⟨?_, ?_⟩
        · intro z hz
          rcases (mem_mergeRuns _ _ _).mp hz with hz1 | hz2
          · exact hxall z hz1
          · rcases List.mem_cons.mp hz2 with rfl | hz2'
            · exact hxy
            · exact lt_trans hxy (hyall z hz2')
        · refine ihx (y :: ys) hxs' hys fun u hu hmem => ?_
          exact hdisj u hu (List.mem_cons_of_mem _ hmem)

/-! ### The delete pass -/

/-- The delete pass only removes elements: its result is a sublist of the
input store, so it preserves strict sortedness. -/
theorem deletePass_sublist (l : List Int) : ∀ ds, List.Sublist (deletePass l ds) l := by
  induction l with
  | nil => intro ds; simp [deletePass]
  | cons x xs ih =>
    intro ds
    cases ds with
    | nil =>
      rw [deletePass]
      exact List.Sublist.cons₂ x (ih [])
    | cons d ds' =>
      rw [deletePass]
      by_cases h : x = d
      · rw [if_pos h]
        exact List.Sublist.cons x (ih ds')
      · rw [if_neg h]
        exact List.Sublist.cons₂ x (ih (d :: ds'))

/-- A value that is not a delete target survives the delete pass exactly when
it was in the store. -/
theorem mem_deletePass_of_not_target (v : Int) :
    ∀ (l ds : List Int), v ∉ ds → (v ∈ deletePass l ds ↔ v ∈ l) := by
  intro l
  induction l with
  | nil => intro ds _; simp [deletePass]
  | cons x xs ih =>
    intro ds hv
    cases ds with
    | nil => simp [deletePass_nil_right]
    | cons d ds' =>
      rw [deletePass]
      by_cases h : x = d
      · rw [if_pos h]
        have hvd : v ∉ ds' := fun hmem => hv (List.mem_cons_of_mem _ hmem)
        have hvx : v ≠ x := fun he => hv (by rw [← he] at h; exact h ▸ List.mem_cons_self _ _)
        rw [ih ds' hvd, List.mem_cons]
        constructor
        · exact Or.inr
        · rintro (rfl | hmem)
          · exact absurd rfl hvx
          · exact hmem
      · rw [if_neg h]
        rw [List.mem_cons, ih (d :: ds') hv, List.mem_cons]

end CSet

namespace CSet

/-- Core invariant-preservation fact: reconciliation of any log against a
strictly sorted store yields a strictly sorted store.  The merged net inserts
are pairwise distinct values absent from the store, so the two-run merge is
strictly ascending, and the delete pass only removes elements. -/
theorem make_ready_items_sorted (s : State) (h : List.Sorted (· < ·) s.items) :
    List.Sorted (· < ·) (make_ready s).items := by
  rw [make_ready]
  by_cases h0 : s.op_buffer.length = 0
  · rw [if_pos h0]
    exact h
  · rw [if_neg h0]
    have hsorted : List.Sorted bufferLe
        (List.insertionSort bufferLe (optimiseLoop s.op_buffer s.items [])) :=
      List.sorted_insertionSort bufferLe _
    have hperm : List.Perm
        (List.insertionSort bufferLe (optimiseLoop s.op_buffer s.items []))
        (optimiseLoop s.op_buffer s.items []) :=
      List.perm_insertionSort bufferLe _
    have hnodupL : ((List.insertionSort bufferLe
        (optimiseLoop s.op_buffer s.items [])).map BufferItem.value).Nodup :=
      (List.Perm.nodup_iff (hperm.map BufferItem.value)).mpr
        (optimiseLoop_values_nodup s.op_buffer s.items [])
    have hsubLI : List.Sublist
        (leadingInserts (List.insertionSort bufferLe (optimiseLoop s.op_buffer s.items [])))
        (List.insertionSort bufferLe (optimiseLoop s.op_buffer s.items [])) :=
      List.takeWhile_sublist _
    have hpairLI : (leadingInserts (List.insertionSort bufferLe
        (optimiseLoop s.op_buffer s.items []))).Pairwise bufferLe :=
      List.Pairwise.sublist hsubLI hsorted
    have hopsLI : ∀ it ∈ leadingInserts (List.insertionSort bufferLe
        (optimiseLoop s.op_buffer s.items [])), it.operation = InsertItem := by
      intro it hit
      have hp := List.mem_takeWhile_imp hit
      cases hcase : it.operation with
      | InsertItem => rfl
      | DeleteItem => rw [hcase] at hp; simp at hp
    have hndLI : ((leadingInserts (List.insertionSort bufferLe
        (optimiseLoop s.op_buffer s.items []))).map BufferItem.value).Nodup :=
      List.Nodup.sublist (hsubLI.map BufferItem.value) hnodupL
    have hsortvals : List.Sorted (· < ·) ((leadingInserts (List.insertionSort bufferLe
        (optimiseLoop s.op_buffer s.items []))).map BufferItem.value) := by
      rw [List.Sorted, List.pairwise_map]
      have hne : (leadingInserts (List.insertionSort bufferLe
          (optimiseLoop s.op_buffer s.items []))).Pairwise
            (fun a b => a.value ≠ b.value) := by
        have hx := hndLI
        rw [List.Nodup, List.pairwise_map] at hx
        exact hx
      refine (hpairLI.and hne).imp_of_mem ?_
      intro a b ha hb hab
      rcases hab with ⟨hle, hne'⟩
      rw [bufferLe_iff] at hle
      rcases hle with hlt | ⟨heq, hlev⟩
      · rw [hopsLI a ha, hopsLI b hb] at hlt
        simp [opVal] at hlt
      · exact lt_of_le_of_ne hlev hne'
    have hdisj : ∀ val ∈ (leadingInserts (List.insertionSort bufferLe
        (optimiseLoop s.op_buffer s.items []))).map BufferItem.value, val ∉ s.items := by
      intro val hval hmem
      rcases List.mem_map.mp hval with ⟨it, hit, rfl⟩
      have hine : it ∈ optimiseLoop s.op_buffer s.items [] :=
        hperm.subset (hsubLI.subset hit)
      have hbs := (optimiseLoop_mem s.op_buffer s.items [] it hine).2.1 (hopsLI it hit)
      rw [← binarySearch_eq_true_iff it.value s.items h, hbs] at hmem
      cases hmem
    have hmerged := mergeRuns_sorted s.items _ h hsortvals hdisj
    exact List.Pairwise.sublist (deletePass_sublist _ _) hmerged

end CSet

open CSet in
/-- C5: after every reconciliation, if the store was strictly increasing and
duplicate-free before, it is again strictly increasing with no duplicates —
for every content of the operation log. -/
theorem make_ready_preserves_order (s : State) (h : List.Sorted (· < ·) s.items) :
    List.Sorted (· < ·) (make_ready s).items ∧ (make_ready s).items.Nodup :=
  ⟨make_ready_items_sorted s h, (make_ready_items_sorted s h).nodup⟩

open CSet in
/-- Witness for C5: store `[2, 4]` with pending batch `insert 3`, `erase 4`,
`insert 1`. -/
theorem make_ready_preserves_order_witness :
    List.Sorted (· < ·) (State.mk
      [BufferItem.mk InsertItem 3, BufferItem.mk DeleteItem 4, BufferItem.mk InsertItem 1]
      ContainerState.Modified [2, 4]).items ∧
    (List.Sorted (· < ·) (make_ready (State.mk
      [BufferItem.mk InsertItem 3, BufferItem.mk DeleteItem 4, BufferItem.mk InsertItem 1]
      ContainerState.Modified [2, 4])).items ∧
     (make_ready (State.mk
      [BufferItem.mk InsertItem 3, BufferItem.mk DeleteItem 4, BufferItem.mk InsertItem 1]
      ContainerState.Modified [2, 4])).items.Nodup) :=
  ⟨by decide, make_ready_preserves_order _ (by decide)⟩

open CSet in
/-- C7: recording `insert(v)` then `erase(v)` (value previously absent) in one
unreconciled batch and reconciling leaves the store exactly as it was, with
`v` absent: the look-ahead flips `eventual_add` off and no net operation is
emitted. -/
theorem insert_then_erase_cancels (C : Nat) (s : State) (v : Int)
    (hC : 2 ≤ C) (hbuf : s.op_buffer = []) (hv : v ∉ s.items) :
    (make_ready (eraseOp C (insertOp C s v) v)).items = s.items ∧
    v ∉ (make_ready (eraseOp C (insertOp C s v) v)).items := by
  have hC0 : ¬ ((0 : Nat) = C) := by omega
  have hC1 : ¬ ((1 : Nat) = C) := by omega
  have hs2 : eraseOp C (insertOp C s v) v =
      { s with op_buffer := [BufferItem.mk InsertItem v, BufferItem.mk DeleteItem v] } := by
    simp [insertOp, eraseOp, hbuf, hC0, hC1]
  have hef : eventualFlag InsertItem v [BufferItem.mk DeleteItem v] = false := by
    simp [eventualFlag]
  have hemit : emitFlag (BufferItem.mk InsertItem v) [BufferItem.mk DeleteItem v]
      s.items = false := by
    rw [emitFlag_insert _ _ _ rfl]
    have hval : (BufferItem.mk InsertItem v).value = v := rfl
    rw [hval, hef]
    rfl
  have hopt : optimiseLoop [BufferItem.mk InsertItem v, BufferItem.mk DeleteItem v]
      s.items [] = [] := by
    simp [optimiseLoop, hemit]
  rw [hs2]
  constructor
  · simp [make_ready, hopt, leadingInserts, trailingDeletes,
      mergeRuns_nil_right, deletePass_nil_right]
  · simp [make_ready, hopt, leadingInserts, trailingDeletes,
      mergeRuns_nil_right, deletePass_nil_right]
    exact hv

open CSet in
/-- Witness for C7: store `[1, 3]`, empty log, value `2`, capacity `64`. -/
theorem insert_then_erase_cancels_witness :
    ((2 : Nat) ≤ 64 ∧ (State.mk [] ContainerState.Ready [1, 3]).op_buffer = [] ∧
      (2 : Int) ∉ (State.mk [] ContainerState.Ready [1, 3]).items) ∧
    ((make_ready (eraseOp 64 (insertOp 64 (State.mk [] ContainerState.Ready [1, 3]) 2) 2)).items
        = (State.mk [] ContainerState.Ready [1, 3]).items ∧
      (2 : Int) ∉
        (make_ready (eraseOp 64 (insertOp 64 (State.mk [] ContainerState.Ready [1, 3]) 2) 2)).items) :=
  ⟨⟨by decide, by decide, by decide⟩,
    insert_then_erase_cancels 64 (State.mk [] ContainerState.Ready [1, 3]) 2
      (by decide) (by decide) (by decide)⟩

namespace CSet

/-! ### First and last operation kinds for a value in the log -/

/-- `firstKind` distributes over append. -/
theorem firstKind_append (v : Int) (l1 l2 : List BufferItem) :
    firstKind v (l1 ++ l2) =
      match firstKind v l1 with
      | some k => some k
      | none => firstKind v l2 := by
  induction l1 with
  | nil => simp [firstKind]
  | cons it rest ih =>
    by_cases h : it.value = v
    · simp [firstKind, h]
    · simp [firstKind, h, ih]

/-- Recursion equation for `lastKind`. -/
theorem lastKind_cons (v : Int) (it : BufferItem) (rest : List BufferItem) :
    lastKind v (it :: rest) =
      match lastKind v rest with
      | some k => some k
      | none => if it.value = v then some it.operation else none := by
  unfold lastKind
  rw [List.reverse_cons, firstKind_append]
  cases h : firstKind v rest.reverse with
  | some k => rfl
  | none => simp [firstKind]

/-- The look-ahead flag records whether the last log entry with the given
value has the given kind (defaulting to `true` when the value does not occur
again). -/
theorem eventualFlag_eq (op : BufferOperation) (v : Int) (rest : List BufferItem) :
    eventualFlag op v rest =
      match lastKind v rest with
      | some k => decide (k = op)
      | none => true := by
  induction rest using List.reverseRecOn with
  | nil => rfl
  | append_singleton l it ih =>
    have hl : eventualFlag op v (l ++ [it]) =
        (if it.value = v then decide (it.operation = op) else eventualFlag op v l) := by
      unfold eventualFlag
      rw [List.foldl_append]
      rfl
    have hk : lastKind v (l ++ [it]) =
        (if it.value = v then some it.operation else lastKind v l) := by
      unfold lastKind
      rw [List.reverse_append]
      simp [firstKind]
    rw [hl, hk]
    by_cases h : it.value = v
    · rw [if_pos h, if_pos h]
    · rw [if_neg h, if_neg h]
      exact ih

/-- When the kind of the first log entry for `v` differs from the kind of the
last log entry for `v`, the resolution loop emits no net operation for `v`:
the first occurrence's branch computes an eventual flag that contradicts its
own kind, and all later occurrences are marked handled. -/
theorem optimiseLoop_conflict (buf : List BufferItem) (items : List Int) :
    ∀ (seen : List Int) (v : Int), v ∉ seen →
      ∀ (k1 k2 : BufferOperation),
        firstKind v buf = some k1 → lastKind v buf = some k2 → k1 ≠ k2 →
        ∀ it ∈ optimiseLoop buf items seen, it.value ≠ v := by
  induction buf with
  | nil =>
    intro seen v hv k1 k2 h1 h2 hne it hit
    simp [optimiseLoop] at hit
  | cons hd rest ih =>
    intro seen v hv k1 k2 h1 h2 hne it hit
    rw [optimiseLoop] at hit
    by_cases hval : hd.value = v
    · have hk1 : k1 = hd.operation := by
        rw [firstKind, if_pos hval] at h1
        exact (Option.some.inj h1).symm
      have hseen : hd.value ∉ seen := by rw [hval]; exact hv
      rw [if_neg hseen] at hit
      rw [lastKind_cons] at h2
      cases hlk : lastKind v rest with
      | none =>
        rw [hlk] at h2
        simp only [hval, if_true, Option.some.injEq] at h2
        exact absurd (by rw [hk1]; exact h2) hne
      | some k =>
        rw [hlk] at h2
        simp only [Option.some.injEq] at h2
        have hk2 : k = k2 := h2
        have hflag : eventualFlag hd.operation hd.value rest = false := by
          rw [hval, eventualFlag_eq, hlk]
          have : ¬ (k = hd.operation) := fun he => hne (by rw [hk1, ← hk2, he])
          simpa using this
        have hemit : emitFlag hd rest items = false := by
          cases hcase : hd.operation with
          | InsertItem =>
            rw [emitFlag_insert _ _ _ hcase]
            rw [hcase] at hflag
            rw [hflag]
            rfl
          | DeleteItem =>
            rw [emitFlag_delete _ _ _ hcase]
            rw [hcase] at hflag
            rw [hflag]
            rfl
        rw [hemit] at hit
        simp only [Bool.false_eq_true, if_false, List.nil_append] at hit
        have hns := (optimiseLoop_mem rest items (hd.value :: seen) it hit).1
        intro he
        exact hns (by rw [he, ← hval]; exact List.mem_cons_self _ _)
    · have h1' : firstKind v rest = some k1 := by
        rw [firstKind, if_neg hval] at h1
        exact h1
      have h2' : lastKind v rest = some k2 := by
        rw [lastKind_cons] at h2
        cases hlk : lastKind v rest with
        | some k =>
          rw [hlk] at h2
          simp only [Option.some.injEq] at h2
          rw [h2]
        | none =>
          rw [hlk] at h2
          simp [hval] at h2
      by_cases hseen : hd.value ∈ seen
      · rw [if_pos hseen] at hit
        exact ih seen v hv k1 k2 h1' h2' hne it hit
      · rw [if_neg hseen] at hit
        rcases List.mem_append.mp hit with hh | ht
        · by_cases hemit : emitFlag hd rest items = true
          · rw [if_pos hemit] at hh
            have heq : it = hd := by simpa using hh
            rw [heq]
            exact hval
          · rw [if_neg hemit] at hh
            simp at hh
        · have hv' : v ∉ hd.value :: seen := by
            intro hmem
            rcases List.mem_cons.mp hmem with he | hm
            · exact hval he.symm
            · exact hv hm
          exact ih (hd.value :: seen) v hv' k1 k2 h1' h2' hne it ht

end CSet

open CSet in
/-- C9: for every value `v` whose first log entry and last log entry have
different operation kinds, reconciliation emits no net operation for `v`, so
`v`'s membership in the store is unchanged — whether or not `v` was present
beforehand. -/
theorem conflicting_first_last_leaves_membership (s : State) (v : Int)
    (k1 k2 : BufferOperation) (h1 : firstKind v s.op_buffer = some k1)
    (h2 : lastKind v s.op_buffer = some k2) (hne : k1 ≠ k2) :
    (∀ it ∈ optimiseLoop s.op_buffer s.items [], it.value ≠ v) ∧
    ((v ∈ (make_ready s).items) ↔ v ∈ s.items) := by
  have hno : ∀ it ∈ optimiseLoop s.op_buffer s.items [], it.value ≠ v :=
    optimiseLoop_conflict s.op_buffer s.items [] v (by simp) k1 k2 h1 h2 hne
  refine ⟨hno, ?_⟩
  have hlen : ¬ (s.op_buffer.length = 0) := by
    intro h0
    rw [List.length_eq_zero.mp h0] at h1
    simp [firstKind] at h1
  rw [make_ready, if_neg hlen]
  show v ∈ deletePass
      (mergeRuns s.items ((leadingInserts (List.insertionSort bufferLe
        (optimiseLoop s.op_buffer s.items []))).map BufferItem.value))
      ((trailingDeletes (List.insertionSort bufferLe
        (optimiseLoop s.op_buffer s.items []))).map BufferItem.value) ↔ v ∈ s.items
  have hperm := List.perm_insertionSort bufferLe (optimiseLoop s.op_buffer s.items [])
  have hvalsL : ∀ it ∈ List.insertionSort bufferLe (optimiseLoop s.op_buffer s.items []),
      it.value ≠ v := fun it hit => hno it (hperm.subset hit)
  have hIns : v ∉ (leadingInserts (List.insertionSort bufferLe
      (optimiseLoop s.op_buffer s.items []))).map BufferItem.value := by
    intro hmem
    rcases List.mem_map.mp hmem with ⟨it, hit, hveq⟩
    exact hvalsL it ((List.takeWhile_sublist _).subset hit) hveq
  have hDel : v ∉ (trailingDeletes (List.insertionSort bufferLe
      (optimiseLoop s.op_buffer s.items []))).map BufferItem.value := by
    intro hmem
    rcases List.mem_map.mp hmem with ⟨it, hit, hveq⟩
    exact hvalsL it ((List.dropWhile_sublist _).subset hit) hveq
  rw [mem_deletePass_of_not_target v _ _ hDel, mem_mergeRuns]
  constructor
  · rintro (hmem | hmem)
    · exact hmem
    · exact absurd hmem hIns
  · exact Or.inl

open CSet in
/-- Witness for C9: log `insert(4); erase(4)` over store `[4]` — first kind
`Insert`, last kind `Delete`; membership of `4` is unchanged (it stays). -/
theorem conflicting_first_last_leaves_membership_witness :
    (firstKind 4 [BufferItem.mk InsertItem 4, BufferItem.mk DeleteItem 4] = some InsertItem ∧
     lastKind 4 [BufferItem.mk InsertItem 4, BufferItem.mk DeleteItem 4] = some DeleteItem ∧
     InsertItem ≠ DeleteItem) ∧
    ((4 : Int) ∈ (make_ready (State.mk
        [BufferItem.mk InsertItem 4, BufferItem.mk DeleteItem 4]
        ContainerState.Modified [4])).items ↔
      (4 : Int) ∈ (State.mk
        [BufferItem.mk InsertItem 4, BufferItem.mk DeleteItem 4]
        ContainerState.Modified [4]).items) :=
  ⟨⟨by decide, by decide, by decide⟩,
    (conflicting_first_last_leaves_membership
      (State.mk [BufferItem.mk InsertItem 4, BufferItem.mk DeleteItem 4]
        ContainerState.Modified [4]) 4 InsertItem DeleteItem
      (by decide) (by decide) (by decide)).2⟩

open CSet in
/-- C3 (counterexample): with reconciled store `[5]` and one pending
`insert(3)`, the bound queries answer over the unreconciled store: the code's
`lower_bound(4)` is position `0` while the standard lower bound over the
reconciled store `[3, 5]` is position `1`; likewise `upper_bound(3)` is `0`
versus `1`, and `equal_range(3)` is `(0, 0)` versus `(0, 1)` — so these
queries do not reconcile and pending operations are not visible to them. -/
theorem bounds_differ_from_reconciled :
    lower_bound (State.mk [BufferItem.mk InsertItem 3]
      ContainerState.Modified [5]) 4 = 0 ∧
    lowerBoundIdx (make_ready (State.mk [BufferItem.mk InsertItem 3]
      ContainerState.Modified [5])).items 4 = 1 ∧
    upper_bound (State.mk [BufferItem.mk InsertItem 3]
      ContainerState.Modified [5]) 3 = 0 ∧
    upperBoundIdx (make_ready (State.mk [BufferItem.mk InsertItem 3]
      ContainerState.Modified [5])).items 3 = 1 ∧
    equal_range (State.mk [BufferItem.mk InsertItem 3]
      ContainerState.Modified [5]) 3 = (0, 0) ∧
    (lowerBoundIdx (make_ready (State.mk [BufferItem.mk InsertItem 3]
        ContainerState.Modified [5])).items 3,
      upperBoundIdx (make_ready (State.mk [BufferItem.mk InsertItem 3]
        ContainerState.Modified [5])).items 3) = (0, 1) :=
  ⟨by decide, by decide, by decide, by decide, by decide, by decide⟩

open CSet in
/-- C3 (amended): `lower_bound(v)`, `upper_bound(v)` and `equal_range(v)` do
not trigger reconciliation; they compute the standard ordered-range results
over the store as of the last reconciliation (position `i` is before the
lower bound iff the element there is `< v`, before the upper bound iff it is
`≤ v`, and `equal_range` is the pair of the two), so pending unreconciled
operations are not visible to them. -/
theorem bounds_standard_over_current_store (s : State) (v : Int)
    (hs : List.Sorted (· < ·) s.items) :
    (∀ (i : Nat) (hi : i < s.items.length),
      (i < lower_bound s v ↔ s.items.get ⟨i, hi⟩ < v)) ∧
    (∀ (i : Nat) (hi : i < s.items.length),
      (i < upper_bound s v ↔ s.items.get ⟨i, hi⟩ ≤ v)) ∧
    lower_bound s v ≤ s.items.length ∧
    upper_bound s v ≤ s.items.length ∧
    equal_range s v = (lower_bound s v, upper_bound s v) := by
  refine ⟨?_, ?_, ?_, ?_, rfl⟩
  · intro i hi
    have hiff := countP_sorted_get_iff (fun x => decide (x < v))
      (fun a b hab hb => by simp only [decide_eq_true_eq] at hb ⊢; omega)
      s.items hs i hi
    simpa [lower_bound, lowerBoundIdx] using hiff
  · intro i hi
    have hiff := countP_sorted_get_iff (fun x => decide (x ≤ v))
      (fun a b hab hb => by simp only [decide_eq_true_eq] at hb ⊢; omega)
      s.items hs i hi
    simpa [upper_bound, upperBoundIdx] using hiff
  · exact List.countP_le_length _
  · exact List.countP_le_length _

open CSet in
/-- Witness for the amended C3 at store `[1, 3]` and `v = 2`. -/
theorem bounds_standard_over_current_store_witness :
    List.Sorted (· < ·) (State.mk [] ContainerState.Ready [1, 3]).items ∧
    lower_bound (State.mk [] ContainerState.Ready [1, 3]) 2 ≤
      (State.mk [] ContainerState.Ready [1, 3]).items.length :=
  ⟨by decide,
    (bounds_standard_over_current_store
      (State.mk [] ContainerState.Ready [1, 3]) 2 (by decide)).2.2.1⟩
